import Mathlib

/-!
Verification development for the `worthy` net-worth tracker.

Embedded source files:
* `finance/worthy/common_currency.rs` — the multiplicative Bellman-Ford
  solver (`bellman_ford`) and the valuation front end (`in_common_currency`).
* `finance/worthy/model/differential.rs` — `decimal_log`,
  `years_until_saved_up_exp`, `get_investment_durability`.
* `finance/worthy/model/model.rs` — `hack_pow`, `deadline_target`,
  `State`, `FiInfo`, `model_fi_info`, `years_duration`.

Modelling conventions, used consistently below:
* `rust_decimal::Decimal` values are modelled as exact rationals `ℚ` in the
  graph code.  The only rounding the Rust code performs there is the 28-digit
  rounding of `Decimal` division; it is abstracted to exact division.
* In the projection code the values flow through `f64` logarithms and powers
  (`decimal_log`, `hack_pow`), so those functions are modelled over `ℝ` with
  `Real.log` / real `rpow`.  A Rust value that would be `NaN`/infinite makes
  `Decimal::from_f64(..).unwrap()` abort; aborts (including `Decimal`
  division by zero, which aborts in `rust_decimal`) are modelled as `none`
  in an `Option` monad.
* `HashSet`/`HashMap` iteration orders are arbitrary in Rust.  The node set
  is modelled with `List.dedup` (a fixed deterministic order); this only
  permutes node indices and the order of the returned association list, not
  the key-to-value mapping, which is what all statements below are about.
* `Utc::now()` is modelled as an explicit parameter `now` (seconds).
-/

section Spec2Proof

attribute [local semireducible] Rat.mul Rat.add Rat.sub Rat.inv

namespace Worthy

/-- `MultiplyDecimal` from `common_currency.rs`: a finite exact decimal
(modelled as `ℚ`) or the `Infinite` sentinel. -/
inductive MultiplyDecimal
  | Finite (val : ℚ)
  | Infinite
deriving DecidableEq, Repr

namespace MultiplyDecimal

/-- Strict order from the `PartialOrd` impl: `Infinite` is greater than
every `Finite`, `Infinite = Infinite`, finite values compare as numbers. -/
def lt : MultiplyDecimal → MultiplyDecimal → Bool
  | Infinite, _ => false
  | Finite _, Infinite => true
  | Finite a, Finite b => decide (a < b)

/-- Non-strict companion of `lt` (`partial_cmp` is `Less` or `Equal`). -/
def le : MultiplyDecimal → MultiplyDecimal → Bool
  | _, Infinite => true
  | Infinite, Finite _ => false
  | Finite a, Finite b => decide (a ≤ b)

/-- The `Add` impl from the source, which intentionally multiplies: the
type is the multiplicative monoid fed to Bellman-Ford.  `Infinite`
absorbs. -/
def add : MultiplyDecimal → MultiplyDecimal → MultiplyDecimal
  | Finite x, Finite y => Finite (x * y)
  | _, _ => Infinite

end MultiplyDecimal

/-- A directed edge `(source index, target index, weight)` as fed to the
solver (`petgraph` edge tuples). -/
abbrev Edge := ℕ × ℕ × MultiplyDecimal

/-- One relaxation of one edge: the body of the inner `for edge in
g.edge_references()` loop of `bellman_ford`.  Returns the new distance map
and whether the edge updated it. -/
def relaxStep (d : ℕ → MultiplyDecimal) (e : Edge) :
    (ℕ → MultiplyDecimal) × Bool :=
  if MultiplyDecimal.lt (MultiplyDecimal.add (d e.1) e.2.2) (d e.2.1) then
    (fun k => if k = e.2.1 then MultiplyDecimal.add (d e.1) e.2.2 else d k,
      true)
  else (d, false)

/-- One full pass over the edge list, threading the `did_update` flag
(initially `false` at each pass, like the Rust loop). -/
def relaxPass (edges : List Edge) (d : ℕ → MultiplyDecimal) (upd : Bool) :
    (ℕ → MultiplyDecimal) × Bool :=
  match edges with
  | [] => (d, upd)
  | e :: rest =>
    let r := relaxStep d e
    relaxPass rest r.1 (upd || r.2)

/-- The `for _ in 1..g.node_count()` loop: up to `fuel` passes, stopping
early once a pass performs no update. -/
def bfLoop (edges : List Edge) : ℕ → (ℕ → MultiplyDecimal) → ℕ → MultiplyDecimal
  | 0, d => d
  | fuel + 1, d =>
    let r := relaxPass edges d false
    if r.2 then bfLoop edges fuel r.1 else r.1

/-- `bellman_ford` from `common_currency.rs`: distances start `Infinite`,
the source starts at the multiplicative identity `Finite 1`, then up to
`n - 1` passes relax every edge.  The Rust function also fills a
`predecessor` vector (unused by callers) and runs one more pass that only
logs a warning on a still-improvable edge; neither affects the returned
distances, so they are omitted. -/
def bellman_ford (n : ℕ) (edges : List Edge) (source : ℕ) :
    ℕ → MultiplyDecimal :=
  bfLoop edges (n - 1)
    (fun k => if k = source then MultiplyDecimal.Finite 1
      else MultiplyDecimal.Infinite)

/-- `Denomination` from `denomination.rs`. -/
inductive Denomination
  | Currency (currency : String)
  | Cryptocurrency (symbol : String)
  | Stock (stock : String)
deriving DecidableEq, Repr

/-- `ExchangeRate` from `exchange_rate.rs` (`from` is a Lean keyword, the
field is called `from'`). -/
structure ExchangeRate where
  from' : Denomination
  to' : Denomination
  rate : ℚ
deriving DecidableEq, Repr

/-- The `unique_denominations` set of `in_common_currency`: every
denomination occurring as an endpoint of an observation.  The Rust
`HashSet` has arbitrary iteration order; `dedup` fixes one. -/
def unique_denominations (l : List ExchangeRate) : List Denomination :=
  (l.flatMap fun c => [c.from', c.to']).dedup

/-- The `denomination_to_node` map: the node index of a denomination. -/
def denomination_to_node (l : List ExchangeRate) (d : Denomination) : ℕ :=
  (unique_denominations l).indexOf d

/-- The `conversion_tuples` edge list: for each observation, an edge
`to → from` with weight `rate` and a reverse edge `from → to` with weight
`1/rate`. -/
def conversion_tuples (l : List ExchangeRate) : List Edge :=
  l.flatMap fun c =>
    [(denomination_to_node l c.to', denomination_to_node l c.from',
        MultiplyDecimal.Finite c.rate),
      (denomination_to_node l c.from', denomination_to_node l c.to',
        MultiplyDecimal.Finite (1 / c.rate))]

/-- The final `filter_map` of `in_common_currency`: keep the denominations
whose distance is finite.  `i` is the node index of the head of the
remaining list. -/
def buildTable (costs : ℕ → MultiplyDecimal) :
    List Denomination → ℕ → List (Denomination × ℚ)
  | [], _ => []
  | d :: rest, i =>
    match costs i with
    | MultiplyDecimal.Finite x => (d, x) :: buildTable costs rest (i + 1)
    | MultiplyDecimal.Infinite => buildTable costs rest (i + 1)

/-- `in_common_currency` from `common_currency.rs`.  Two aborts are
modelled as `none`: `dec!(1.0) / conversion.rate` aborts when a rate is
zero (while building `conversion_tuples`), and `denomination_to_node[base]`
aborts when the base denomination is not a node of the graph. -/
def in_common_currency (l : List ExchangeRate) (base : Denomination) :
    Option (List (Denomination × ℚ)) :=
  if l.any fun c => c.rate == 0 then none
  else if base ∈ unique_denominations l then
    let costs := bellman_ford (unique_denominations l).length
      (conversion_tuples l) (denomination_to_node l base)
    some (buildTable costs (unique_denominations l) 0)
  else none

/-- Lookup in the returned factor table (the `HashMap` is modelled as an
association list; keys are unique, see `unique_denominations`). -/
def tableLookup (t : List (Denomination × ℚ)) (d : Denomination) :
    Option ℚ :=
  (t.find? fun p => p.1 == d).map (fun p => p.2)

/-- Reachability along the directed edges fed to the solver. -/
inductive Reaches (E : List Edge) (s : ℕ) : ℕ → Prop
  | refl : Reaches E s s
  | step {i j : ℕ} {w : MultiplyDecimal} :
      Reaches E s i → (i, j, w) ∈ E → Reaches E s j

/-- All edge endpoints are valid node indices. -/
abbrev WFEdges (n : ℕ) (E : List Edge) : Prop :=
  ∀ e ∈ E, e.1 < n ∧ e.2.1 < n

/-- A node potential `φ` is compatible with an edge when the weight is a
finite `w` and `φ target = φ source * w`.  A potential compatible with
every edge witnesses that the observed rates are consistent (every cycle
multiplies to `1`). -/
def potEdge (φ : ℕ → ℚ) (e : Edge) : Bool :=
  match e.2.2 with
  | MultiplyDecimal.Finite w => decide (φ e.2.1 = φ e.1 * w)
  | MultiplyDecimal.Infinite => false

/-- The number of finite entries among the first `n` distances. -/
def finCount (n : ℕ) (d : ℕ → MultiplyDecimal) : ℕ :=
  ((Finset.range n).filter fun k => d k ≠ MultiplyDecimal.Infinite).card

namespace MultiplyDecimal

theorem ne_infinite_of_lt {a b : MultiplyDecimal} (h : lt a b = true) :
    a ≠ Infinite := by
  cases a <;> simp [lt] at *

theorem add_left_ne_infinite {a b : MultiplyDecimal}
    (h : add a b ≠ Infinite) : a ≠ Infinite := by
  cases a <;> cases b <;> simp [add] at *

theorem add_finite {x y : ℚ} : add (Finite x) (Finite y) = Finite (x * y) :=
  rfl

theorem lt_self_false (a : MultiplyDecimal) : lt a a = false := by
  cases a <;> simp [lt]

theorem lt_finite_infinite (x : ℚ) : lt (Finite x) Infinite = true := rfl

end MultiplyDecimal

theorem reaches_lt {n : ℕ} {E : List Edge} {s k : ℕ} (hwf : WFEdges n E)
    (hs : s < n) (h : Reaches E s k) : k < n := by
  induction h with
  | refl => exact hs
  | step _ hmem _ => exact (hwf _ hmem).2

theorem relaxStep_fst_apply (d : ℕ → MultiplyDecimal) (e : Edge) (k : ℕ) :
    (relaxStep d e).1 k = d k ∨
      ((relaxStep d e).1 k = MultiplyDecimal.add (d e.1) e.2.2 ∧ k = e.2.1 ∧
        MultiplyDecimal.lt (MultiplyDecimal.add (d e.1) e.2.2) (d e.2.1) = true) := by
  unfold relaxStep
  split
  · rename_i h
    by_cases hk : k = e.2.1
    · exact Or.inr ⟨by simp [hk], hk, h⟩
    · exact Or.inl (by simp [hk])
  · exact Or.inl rfl

theorem relaxStep_ne_infinite {d : ℕ → MultiplyDecimal} {e : Edge} {k : ℕ}
    (h : d k ≠ .Infinite) : (relaxStep d e).1 k ≠ .Infinite := by
  rcases relaxStep_fst_apply d e k with h' | ⟨h', _, hlt⟩
  · rw [h']; exact h
  · rw [h']; exact MultiplyDecimal.ne_infinite_of_lt hlt

theorem relaxStep_snd_false {d : ℕ → MultiplyDecimal} {e : Edge}
    (h : (relaxStep d e).2 = false) :
    (relaxStep d e).1 = d ∧
      MultiplyDecimal.lt (MultiplyDecimal.add (d e.1) e.2.2) (d e.2.1) = false := by
  by_cases hc :
      MultiplyDecimal.lt (MultiplyDecimal.add (d e.1) e.2.2) (d e.2.1) = true
  · exfalso
    unfold relaxStep at h
    rw [if_pos hc] at h
    simp at h
  · refine ⟨?_, by simpa using hc⟩
    unfold relaxStep
    rw [if_neg hc]

theorem potEdge_elim {φ : ℕ → ℚ} {e : Edge} (hp : potEdge φ e = true) :
    ∃ w : ℚ, e.2.2 = .Finite w ∧ φ e.2.1 = φ e.1 * w := by
  unfold potEdge at hp
  cases hw : e.2.2 with
  | Finite w =>
    rw [hw] at hp
    exact ⟨w, rfl, by simpa using hp⟩
  | Infinite =>
    rw [hw] at hp
    simp at hp

theorem relaxPass_flag_true (edges : List Edge) (d : ℕ → MultiplyDecimal) :
    (relaxPass edges d true).2 = true := by
  induction edges generalizing d with
  | nil => rfl
  | cons e rest ih => simpa [relaxPass] using ih (relaxStep d e).1

theorem relaxPass_ne_infinite (edges : List Edge) (d : ℕ → MultiplyDecimal)
    (b : Bool) (k : ℕ) (h : d k ≠ .Infinite) :
    (relaxPass edges d b).1 k ≠ .Infinite := by
  induction edges generalizing d b with
  | nil => exact h
  | cons e rest ih =>
    simpa [relaxPass] using ih (relaxStep d e).1 _ (relaxStep_ne_infinite h)

theorem relaxPass_no_update (edges : List Edge) (d : ℕ → MultiplyDecimal)
    (h : (relaxPass edges d false).2 = false) :
    (relaxPass edges d false).1 = d ∧
      ∀ e ∈ edges,
        MultiplyDecimal.lt (MultiplyDecimal.add (d e.1) e.2.2) (d e.2.1) = false := by
  induction edges generalizing d with
  | nil => exact ⟨rfl, by simp⟩
  | cons e rest ih =>
    rw [show relaxPass (e :: rest) d false
        = relaxPass rest (relaxStep d e).1 (false || (relaxStep d e).2) from rfl] at h ⊢
    cases hu : (relaxStep d e).2 with
    | true =>
      exfalso
      rw [hu] at h
      simp only [Bool.false_or] at h
      rw [relaxPass_flag_true] at h
      exact absurd h (by simp)
    | false =>
      rw [hu] at h
      obtain ⟨hd, hc⟩ := relaxStep_snd_false hu
      rw [hd] at h ⊢
      simp only [Bool.false_or] at h ⊢
      obtain ⟨h1, h2⟩ := ih d h
      refine ⟨h1, ?_⟩
      intro e' he'
      rcases List.mem_cons.mp he' with rfl | he'
      · exact hc
      · exact h2 e' he'

theorem relaxPass_reaches {E : List Edge} {s : ℕ} (edges : List Edge)
    (d : ℕ → MultiplyDecimal) (b : Bool)
    (hsub : ∀ e ∈ edges, e ∈ E)
    (hinv : ∀ k, d k ≠ .Infinite → Reaches E s k) :
    ∀ k, (relaxPass edges d b).1 k ≠ .Infinite → Reaches E s k := by
  induction edges generalizing d b with
  | nil => exact hinv
  | cons e rest ih =>
    intro k hk
    rw [show relaxPass (e :: rest) d b
        = relaxPass rest (relaxStep d e).1 (b || (relaxStep d e).2) from rfl] at hk
    refine ih (relaxStep d e).1 _ (fun e' he' => hsub e' (List.mem_cons_of_mem _ he'))
      ?_ k hk
    intro k' hk'
    rcases relaxStep_fst_apply d e k' with h' | ⟨h', hkk, hlt⟩
    · exact hinv k' (h' ▸ hk')
    · have hne : d e.1 ≠ .Infinite :=
        MultiplyDecimal.add_left_ne_infinite (h' ▸ hk')
      have : Reaches E s e.1 := hinv e.1 hne
      subst hkk
      exact Reaches.step this (hsub e (List.mem_cons_self e rest))

theorem relaxPass_potential {E : List Edge} {φ : ℕ → ℚ} (edges : List Edge)
    (d : ℕ → MultiplyDecimal) (b : Bool)
    (hsub : ∀ e ∈ edges, e ∈ E)
    (hpot : ∀ e ∈ E, potEdge φ e = true)
    (hinv : ∀ k, d k = .Infinite ∨ d k = .Finite (φ k)) :
    ∀ k, (relaxPass edges d b).1 k = .Infinite ∨
      (relaxPass edges d b).1 k = .Finite (φ k) := by
  induction edges generalizing d b with
  | nil => exact hinv
  | cons e rest ih =>
    intro k
    rw [show relaxPass (e :: rest) d b
        = relaxPass rest (relaxStep d e).1 (b || (relaxStep d e).2) from rfl]
    refine ih (relaxStep d e).1 _
      (fun e' he' => hsub e' (List.mem_cons_of_mem _ he')) ?_ k
    intro k'
    rcases relaxStep_fst_apply d e k' with h' | ⟨h', hkk, hlt⟩
    · rw [h']; exact hinv k'
    · rw [h']
      have hne : d e.1 ≠ .Infinite :=
        MultiplyDecimal.add_left_ne_infinite (MultiplyDecimal.ne_infinite_of_lt hlt)
      have hfin : d e.1 = .Finite (φ e.1) := (hinv e.1).resolve_left hne
      obtain ⟨w, hw, hp⟩ := potEdge_elim (hpot e (hsub e (List.mem_cons_self e rest)))
      right
      rw [hfin, hw, MultiplyDecimal.add_finite, hkk, hp]

theorem relaxPass_update_flips {E : List Edge} {φ : ℕ → ℚ} (edges : List Edge)
    (d : ℕ → MultiplyDecimal)
    (hsub : ∀ e ∈ edges, e ∈ E)
    (hpot : ∀ e ∈ E, potEdge φ e = true)
    (hinv : ∀ k, d k = .Infinite ∨ d k = .Finite (φ k))
    (hupd : (relaxPass edges d false).2 = true) :
    ∃ j, (∃ e ∈ edges, e.2.1 = j) ∧ d j = .Infinite ∧
      (relaxPass edges d false).1 j ≠ .Infinite := by
  induction edges generalizing d with
  | nil => simp [relaxPass] at hupd
  | cons e rest ih =>
    rw [show relaxPass (e :: rest) d false
        = relaxPass rest (relaxStep d e).1 (false || (relaxStep d e).2) from rfl]
      at hupd ⊢
    cases hu : (relaxStep d e).2 with
    | true =>
      -- this very step performed an update; under the potential the
      -- updated target must have been Infinite before
      have hcond : MultiplyDecimal.lt
          (MultiplyDecimal.add (d e.1) e.2.2) (d e.2.1) = true := by
        unfold relaxStep at hu
        split at hu
        · assumption
        · simp at hu
      have hne : d e.1 ≠ .Infinite :=
        MultiplyDecimal.add_left_ne_infinite (MultiplyDecimal.ne_infinite_of_lt hcond)
      have hfin : d e.1 = .Finite (φ e.1) := (hinv e.1).resolve_left hne
      obtain ⟨w, hw, hp⟩ := potEdge_elim (hpot e (hsub e (List.mem_cons_self e rest)))
      have hjinf : d e.2.1 = .Infinite := by
        rcases hinv e.2.1 with h | h
        · exact h
        · exfalso
          rw [hfin, hw, MultiplyDecimal.add_finite, ← hp, h,
            MultiplyDecimal.lt_self_false] at hcond
          simp at hcond
      have hstep : (relaxStep d e).1 e.2.1 ≠ .Infinite := by
        unfold relaxStep
        rw [if_pos hcond]
        simpa using MultiplyDecimal.ne_infinite_of_lt hcond
      refine ⟨e.2.1, ⟨e, List.mem_cons_self e rest, rfl⟩, hjinf, ?_⟩
      exact relaxPass_ne_infinite rest (relaxStep d e).1 _ _ hstep
    | false =>
      rw [hu] at hupd
      obtain ⟨hd, _⟩ := relaxStep_snd_false hu
      rw [hd] at hupd ⊢
      obtain ⟨j, ⟨e', he', hj⟩, h1, h2⟩ :=
        ih d (fun e' he' => hsub e' (List.mem_cons_of_mem _ he')) hinv
          (by simpa using hupd)
      exact ⟨j, ⟨e', List.mem_cons_of_mem _ he', hj⟩, h1, by simpa using h2⟩

theorem relaxPass_finCount_lt {n : ℕ} {E : List Edge} {φ : ℕ → ℚ}
    (d : ℕ → MultiplyDecimal)
    (hwf : WFEdges n E)
    (hpot : ∀ e ∈ E, potEdge φ e = true)
    (hinv : ∀ k, d k = .Infinite ∨ d k = .Finite (φ k))
    (hupd : (relaxPass E d false).2 = true) :
    finCount n d < finCount n (relaxPass E d false).1 := by
  obtain ⟨j, ⟨e, he, hj⟩, hinf, hfin⟩ :=
    relaxPass_update_flips E d (fun _ h => h) hpot hinv hupd
  have hjn : j < n := hj ▸ (hwf e he).2
  apply Finset.card_lt_card
  constructor
  · intro k hk
    rw [Finset.mem_filter] at hk ⊢
    exact ⟨hk.1, relaxPass_ne_infinite E d false k hk.2⟩
  · intro hsub
    have := hsub (Finset.mem_filter.mpr ⟨Finset.mem_range.mpr hjn, hfin⟩)
    rw [Finset.mem_filter] at this
    exact this.2 hinf

/-- No edge can still improve its target's distance: the relaxation
reached a fixed point. -/
def edgesStable (E : List Edge) (d : ℕ → MultiplyDecimal) : Prop :=
  ∀ e ∈ E,
    MultiplyDecimal.lt (MultiplyDecimal.add (d e.1) e.2.2) (d e.2.1) = false

theorem bfLoop_ne_infinite (E : List Edge) (fuel : ℕ)
    (d : ℕ → MultiplyDecimal) (k : ℕ) (h : d k ≠ .Infinite) :
    bfLoop E fuel d k ≠ .Infinite := by
  induction fuel generalizing d with
  | zero => exact h
  | succ f ih =>
    simp only [bfLoop]
    split
    · exact ih _ (relaxPass_ne_infinite E d false k h)
    · exact relaxPass_ne_infinite E d false k h

theorem bfLoop_reaches {E : List Edge} {s : ℕ} (fuel : ℕ)
    (d : ℕ → MultiplyDecimal)
    (hinv : ∀ k, d k ≠ .Infinite → Reaches E s k) :
    ∀ k, bfLoop E fuel d k ≠ .Infinite → Reaches E s k := by
  induction fuel generalizing d with
  | zero => exact hinv
  | succ f ih =>
    intro k
    simp only [bfLoop]
    have hnext := relaxPass_reaches (E := E) (s := s) E d false (fun _ h => h) hinv
    split
    · exact fun h => ih _ hnext k h
    · exact fun h => hnext k h

theorem bfLoop_potential {E : List Edge} {φ : ℕ → ℚ}
    (hpot : ∀ e ∈ E, potEdge φ e = true) (fuel : ℕ)
    (d : ℕ → MultiplyDecimal)
    (hinv : ∀ k, d k = .Infinite ∨ d k = .Finite (φ k)) :
    ∀ k, bfLoop E fuel d k = .Infinite ∨
      bfLoop E fuel d k = .Finite (φ k) := by
  induction fuel generalizing d with
  | zero => exact hinv
  | succ f ih =>
    intro k
    simp only [bfLoop]
    have hnext := relaxPass_potential (E := E) E d false (fun _ h => h) hpot hinv
    split
    · exact ih _ hnext k
    · exact hnext k

theorem bfLoop_stable_or_count {n : ℕ} {E : List Edge} {φ : ℕ → ℚ}
    (hwf : WFEdges n E) (hpot : ∀ e ∈ E, potEdge φ e = true) (fuel : ℕ)
    (d : ℕ → MultiplyDecimal)
    (hinv : ∀ k, d k = .Infinite ∨ d k = .Finite (φ k)) :
    edgesStable E (bfLoop E fuel d) ∨
      finCount n d + fuel ≤ finCount n (bfLoop E fuel d) := by
  induction fuel generalizing d with
  | zero => right; simp [bfLoop]
  | succ f ih =>
    simp only [bfLoop]
    cases hr : (relaxPass E d false).2 with
    | false =>
      rw [if_neg Bool.false_ne_true]
      obtain ⟨hd, hstab⟩ := relaxPass_no_update E d hr
      left
      rw [hd]
      exact hstab
    | true =>
      rw [if_pos rfl]
      have h3 := relaxPass_potential (E := E) E d false (fun _ h => h) hpot hinv
      have hlt := relaxPass_finCount_lt (n := n) d hwf hpot hinv hr
      rcases ih (relaxPass E d false).1 h3 with h | h
      · exact Or.inl h
      · right
        omega

theorem stable_complete {n : ℕ} {E : List Edge} {s : ℕ} {φ : ℕ → ℚ}
    (_hwf : WFEdges n E) (hpot : ∀ e ∈ E, potEdge φ e = true)
    (d : ℕ → MultiplyDecimal) (hds : d s ≠ .Infinite)
    (hinv : ∀ k, d k = .Infinite ∨ d k = .Finite (φ k))
    (hstab : edgesStable E d) :
    ∀ k, Reaches E s k → d k ≠ .Infinite := by
  intro k hk
  induction hk with
  | refl => exact hds
  | @step i j w hik hmem ihk =>
    have hfin : d i = .Finite (φ i) := (hinv i).resolve_left ihk
    obtain ⟨wq, hw, hp⟩ := potEdge_elim (hpot _ hmem)
    intro hj
    have hlt : MultiplyDecimal.lt
        (MultiplyDecimal.add (d i) ((i, j, w) : Edge).2.2) (d j) = true := by
      rw [hj, hfin, hw, MultiplyDecimal.add_finite]
      exact MultiplyDecimal.lt_finite_infinite _
    rw [hstab _ hmem] at hlt
    exact absurd hlt (by simp)

theorem bellman_ford_char {n : ℕ} {E : List Edge} {s : ℕ} {φ : ℕ → ℚ}
    (hwf : WFEdges n E) (hpot : ∀ e ∈ E, potEdge φ e = true)
    (hφs : φ s = 1) (hs : s < n) (k : ℕ) :
    (Reaches E s k → bellman_ford n E s k = .Finite (φ k)) ∧
      (¬ Reaches E s k → bellman_ford n E s k = .Infinite) := by
  have hd0s : (fun k => if k = s then MultiplyDecimal.Finite 1
      else MultiplyDecimal.Infinite) s = .Finite 1 := by simp
  have hinv2 : ∀ k, (fun k => if k = s then MultiplyDecimal.Finite 1
      else MultiplyDecimal.Infinite) k ≠ .Infinite → Reaches E s k := by
    intro k hk
    by_cases h : k = s
    · subst h; exact Reaches.refl
    · simp [h] at hk
  have hinv3 : ∀ k, (fun k => if k = s then MultiplyDecimal.Finite 1
      else MultiplyDecimal.Infinite) k = .Infinite ∨
      (fun k => if k = s then MultiplyDecimal.Finite 1
        else MultiplyDecimal.Infinite) k = .Finite (φ k) := by
    intro k
    by_cases h : k = s
    · subst h; right; simp [hφs]
    · left; simp [h]
  have hres3 := bfLoop_potential hpot (n - 1) _ hinv3
  have hres2 := bfLoop_reaches (n - 1) _ hinv2
  have hcomplete : ∀ k, Reaches E s k →
      bellman_ford n E s k ≠ .Infinite := by
    rcases bfLoop_stable_or_count hwf hpot (n - 1) _ hinv3 with hstab | hcount
    · exact stable_complete hwf hpot _
        (bfLoop_ne_infinite E (n - 1) _ s (by simp)) hres3 hstab
    · intro k hk
      have hkn : k < n := reaches_lt hwf hs hk
      have h1 : finCount n (fun k => if k = s then MultiplyDecimal.Finite 1
          else MultiplyDecimal.Infinite) = 1 := by
        unfold finCount
        have hfe : (Finset.range n).filter
            (fun k => (fun k => if k = s then MultiplyDecimal.Finite 1
              else MultiplyDecimal.Infinite) k ≠ MultiplyDecimal.Infinite) = {s} := by
          ext x
          simp only [Finset.mem_filter, Finset.mem_range, Finset.mem_singleton]
          constructor
          · rintro ⟨_, hx⟩
            by_contra hxs
            simp [hxs] at hx
          · rintro rfl
            exact ⟨hs, by simp⟩
        rw [hfe, Finset.card_singleton]
      have hn1 : 1 ≤ n := Nat.one_le_of_lt (Nat.lt_of_le_of_lt (Nat.zero_le s) hs)
      have hcard : n ≤ finCount n (bellman_ford n E s) := by
        unfold bellman_ford
        rw [h1] at hcount
        omega
      have heq : (Finset.range n).filter
          (fun j => bellman_ford n E s j ≠ MultiplyDecimal.Infinite) =
          Finset.range n := by
        apply Finset.eq_of_subset_of_card_le (Finset.filter_subset _ _)
        rw [Finset.card_range]
        exact hcard
      have hkmem : k ∈ (Finset.range n).filter
          (fun j => bellman_ford n E s j ≠ MultiplyDecimal.Infinite) := by
        rw [heq]
        exact Finset.mem_range.mpr hkn
      exact (Finset.mem_filter.mp hkmem).2
  constructor
  · intro hk
    exact (hres3 k).resolve_left (hcomplete k hk)
  · intro hk
    rcases hres3 k with h | h
    · exact h
    · exact absurd (hres2 k (by rw [h]; simp)) hk

/-- Denomination-level connectivity along the graph built by
`in_common_currency`: every observation contributes the edge `to → from`
and the reverse edge `from → to`, so this is connectivity to `base`
through observation endpoints. -/
inductive DReach (l : List ExchangeRate) (base : Denomination) :
    Denomination → Prop
  | refl : DReach l base base
  | fwd {e : ExchangeRate} {x : Denomination} :
      DReach l base x → e ∈ l → e.to' = x → DReach l base e.from'
  | rev {e : ExchangeRate} {x : Denomination} :
      DReach l base x → e ∈ l → e.from' = x → DReach l base e.to'

theorem mem_unique_denominations {l : List ExchangeRate} {d : Denomination} :
    d ∈ unique_denominations l ↔ ∃ e ∈ l, e.from' = d ∨ e.to' = d := by
  unfold unique_denominations
  rw [List.mem_dedup, List.mem_flatMap]
  constructor
  · rintro ⟨e, he, hd⟩
    rcases List.mem_pair.mp hd with h | h
    · exact ⟨e, he, Or.inl h.symm⟩
    · exact ⟨e, he, Or.inr h.symm⟩
  · rintro ⟨e, he, h | h⟩
    · exact ⟨e, he, List.mem_pair.mpr (Or.inl h.symm)⟩
    · exact ⟨e, he, List.mem_pair.mpr (Or.inr h.symm)⟩

theorem from_mem_unique {l : List ExchangeRate} {e : ExchangeRate}
    (he : e ∈ l) : e.from' ∈ unique_denominations l :=
  mem_unique_denominations.mpr ⟨e, he, Or.inl rfl⟩

theorem to_mem_unique {l : List ExchangeRate} {e : ExchangeRate}
    (he : e ∈ l) : e.to' ∈ unique_denominations l :=
  mem_unique_denominations.mpr ⟨e, he, Or.inr rfl⟩

theorem unique_denominations_nodup (l : List ExchangeRate) :
    (unique_denominations l).Nodup :=
  List.nodup_dedup _

theorem dreach_touched {l : List ExchangeRate} {base d : Denomination}
    (hbase : base ∈ unique_denominations l) (h : DReach l base d) :
    d ∈ unique_denominations l := by
  induction h with
  | refl => exact hbase
  | fwd _ he _ _ => exact from_mem_unique he
  | rev _ he _ _ => exact to_mem_unique he

theorem tableLookup_buildTable (costs : ℕ → MultiplyDecimal) :
    ∀ (m : List Denomination) (i : ℕ), m.Nodup → ∀ d : Denomination,
      tableLookup (buildTable costs m i) d =
        if d ∈ m then
          (match costs (i + m.indexOf d) with
            | MultiplyDecimal.Finite x => some x
            | MultiplyDecimal.Infinite => none)
        else none := by
  intro m
  induction m with
  | nil => intro i _ d; simp [buildTable, tableLookup]
  | cons a rest ih =>
    intro i hnd d
    have hand : a ∉ rest := (List.nodup_cons.mp hnd).1
    have hnd' : rest.Nodup := (List.nodup_cons.mp hnd).2
    by_cases hd : d = a
    · subst hd
      rw [if_pos (List.mem_cons_self _ _), List.indexOf_cons_self, Nat.add_zero]
      cases hc : costs i with
      | Finite x =>
        simp [buildTable, hc, tableLookup]
      | Infinite =>
        simp only [buildTable, hc]
        rw [ih (i + 1) hnd' d, if_neg hand]
    · have hne : a ≠ d := fun h => hd h.symm
      have hidx : (a :: rest).indexOf d = (rest.indexOf d) + 1 :=
        List.indexOf_cons_ne _ hne
      have hmem : (d ∈ a :: rest) ↔ d ∈ rest := by
        simp [List.mem_cons, hd]
      cases hc : costs i with
      | Finite x =>
        simp only [buildTable, hc]
        have hbeq : (a == d) = false := by
          rw [beq_eq_false_iff_ne]
          exact hne
        have hhead : tableLookup ((a, x) :: buildTable costs rest (i + 1)) d =
            tableLookup (buildTable costs rest (i + 1)) d := by
          simp [tableLookup, List.find?, hbeq]
        rw [hhead, ih (i + 1) hnd' d]
        by_cases hdm : d ∈ rest
        · rw [if_pos hdm, if_pos (hmem.mpr hdm), hidx]
          have : i + 1 + rest.indexOf d = i + (rest.indexOf d + 1) := by omega
          rw [this]
        · rw [if_neg hdm, if_neg (fun h => hdm (hmem.mp h))]
      | Infinite =>
        simp only [buildTable, hc]
        rw [ih (i + 1) hnd' d]
        by_cases hdm : d ∈ rest
        · rw [if_pos hdm, if_pos (hmem.mpr hdm), hidx]
          have : i + 1 + rest.indexOf d = i + (rest.indexOf d + 1) := by omega
          rw [this]
        · rw [if_neg hdm, if_neg (fun h => hdm (hmem.mp h))]

theorem mem_conversion_tuples {l : List ExchangeRate} {ed : Edge} :
    ed ∈ conversion_tuples l ↔ ∃ e ∈ l,
      ed = (denomination_to_node l e.to', denomination_to_node l e.from',
        MultiplyDecimal.Finite e.rate) ∨
      ed = (denomination_to_node l e.from', denomination_to_node l e.to',
        MultiplyDecimal.Finite (1 / e.rate)) := by
  unfold conversion_tuples
  rw [List.mem_flatMap]
  constructor
  · rintro ⟨e, he, hd⟩
    exact ⟨e, he, List.mem_pair.mp hd⟩
  · rintro ⟨e, he, h⟩
    exact ⟨e, he, List.mem_pair.mpr h⟩

theorem conversion_tuples_wf (l : List ExchangeRate) :
    WFEdges (unique_denominations l).length (conversion_tuples l) := by
  intro ed hed
  obtain ⟨e, he, h | h⟩ := mem_conversion_tuples.mp hed <;> subst h
  · exact ⟨List.indexOf_lt_length.mpr (to_mem_unique he),
      List.indexOf_lt_length.mpr (from_mem_unique he)⟩
  · exact ⟨List.indexOf_lt_length.mpr (from_mem_unique he),
      List.indexOf_lt_length.mpr (to_mem_unique he)⟩

theorem getD_indexOf {m : List Denomination} {d b : Denomination}
    (h : d ∈ m) : m.getD (m.indexOf d) b = d := by
  have hlt : m.indexOf d < m.length := List.indexOf_lt_length.mpr h
  rw [List.getD_eq_getElem m b hlt]
  exact List.getElem_indexOf hlt

theorem dreach_to_reaches {l : List ExchangeRate} {base d : Denomination}
    (h : DReach l base d) :
    Reaches (conversion_tuples l) (denomination_to_node l base)
      (denomination_to_node l d) := by
  induction h with
  | refl => exact Reaches.refl
  | @fwd e x _ he hx ih =>
    subst hx
    exact Reaches.step ih
      (mem_conversion_tuples.mpr ⟨e, he, Or.inl rfl⟩)
  | @rev e x _ he hx ih =>
    subst hx
    exact Reaches.step ih
      (mem_conversion_tuples.mpr ⟨e, he, Or.inr rfl⟩)

theorem reaches_to_dreach {l : List ExchangeRate} {base : Denomination}
    (hbase : base ∈ unique_denominations l) :
    ∀ j, Reaches (conversion_tuples l) (denomination_to_node l base) j →
      ∃ d', d' ∈ unique_denominations l ∧ j = denomination_to_node l d' ∧
        DReach l base d' := by
  intro j hj
  induction hj with
  | refl => exact ⟨base, hbase, rfl, DReach.refl⟩
  | @step i j w _ hmem ih =>
    obtain ⟨d', hd'm, hd'i, hd'r⟩ := ih
    obtain ⟨e, he, h | h⟩ := mem_conversion_tuples.mp hmem
    · have hi : i = denomination_to_node l e.to' := congrArg Prod.fst h
      have hj' : j = denomination_to_node l e.from' := by
        have := congrArg (fun p => p.2.1) h
        simpa using this
      have hde : d' = e.to' := by
        have : denomination_to_node l d' = denomination_to_node l e.to' :=
          hd'i ▸ hi
        exact (List.indexOf_inj hd'm (to_mem_unique he)).mp this
      exact ⟨e.from', from_mem_unique he, hj',
        DReach.fwd hd'r he hde.symm⟩
    · have hi : i = denomination_to_node l e.from' := congrArg Prod.fst h
      have hj' : j = denomination_to_node l e.to' := by
        have := congrArg (fun p => p.2.1) h
        simpa using this
      have hde : d' = e.from' := by
        have : denomination_to_node l d' = denomination_to_node l e.from' :=
          hd'i ▸ hi
        exact (List.indexOf_inj hd'm (from_mem_unique he)).mp this
      exact ⟨e.to', to_mem_unique he, hj',
        DReach.rev hd'r he hde.symm⟩

/-- The central characterization of `in_common_currency` on a consistent
rate system: if `φ` assigns `1` to the base and respects every observed
rate, the valuation succeeds and the table maps exactly the denominations
connected to the base, each to its `φ`-value. -/
theorem icc_char {l : List ExchangeRate} (base : Denomination)
    (φ : Denomination → ℚ)
    (hrate : ∀ e ∈ l, e.rate ≠ 0)
    (hbase : base ∈ unique_denominations l)
    (hφb : φ base = 1)
    (hφ : ∀ e ∈ l, φ e.from' = φ e.to' * e.rate) :
    ∃ t, in_common_currency l base = some t ∧
      ∀ d : Denomination,
        (DReach l base d → tableLookup t d = some (φ d)) ∧
        (¬ DReach l base d → tableLookup t d = none) := by
  have hany : (l.any fun c => c.rate == 0) = false := by
    rw [List.any_eq_false]
    intro e he
    simpa using hrate e he
  have hicc : in_common_currency l base =
      some (buildTable (bellman_ford (unique_denominations l).length
        (conversion_tuples l) (denomination_to_node l base))
        (unique_denominations l) 0) := by
    unfold in_common_currency
    rw [hany]
    simp only [Bool.false_eq_true, if_false, if_pos hbase]
  -- the index-level potential
  have hpot : ∀ e ∈ conversion_tuples l,
      potEdge (fun i => φ ((unique_denominations l).getD i base)) e = true := by
    intro ed hed
    obtain ⟨e, he, h | h⟩ := mem_conversion_tuples.mp hed <;> subst h <;>
      unfold potEdge <;>
      simp only [decide_eq_true_eq, denomination_to_node] <;>
      rw [getD_indexOf (from_mem_unique he), getD_indexOf (to_mem_unique he)]
    · exact hφ e he
    · rw [hφ e he, mul_assoc, mul_one_div, div_self (hrate e he), mul_one]
  have hφs : (fun i => φ ((unique_denominations l).getD i base))
      (denomination_to_node l base) = 1 := by
    simp only [denomination_to_node]
    rw [getD_indexOf hbase, hφb]
  have hsn : denomination_to_node l base < (unique_denominations l).length :=
    List.indexOf_lt_length.mpr hbase
  have hchar := fun k => bellman_ford_char (conversion_tuples_wf l) hpot hφs hsn k
  refine ⟨_, hicc, ?_⟩
  intro d
  have hlk := tableLookup_buildTable
    (bellman_ford (unique_denominations l).length (conversion_tuples l)
      (denomination_to_node l base))
    (unique_denominations l) 0 (unique_denominations_nodup l) d
  constructor
  · intro hdr
    have hdm : d ∈ unique_denominations l := dreach_touched hbase hdr
    have hreach := dreach_to_reaches hdr
    have hcost := (hchar (denomination_to_node l d)).1 hreach
    rw [hlk, if_pos hdm, Nat.zero_add]
    have hgd : φ ((unique_denominations l).getD (denomination_to_node l d)
        base) = φ d := by
      simp only [denomination_to_node]
      rw [getD_indexOf hdm]
    rw [show (unique_denominations l).indexOf d = denomination_to_node l d
        from rfl, hcost, hgd]
  · intro hdr
    by_cases hdm : d ∈ unique_denominations l
    · have hnr : ¬ Reaches (conversion_tuples l) (denomination_to_node l base)
          (denomination_to_node l d) := by
        intro hr
        obtain ⟨d', hd'm, hd'i, hd'r⟩ := reaches_to_dreach hbase _ hr
        have : d = d' := (List.indexOf_inj hdm hd'm).mp hd'i
        exact hdr (this ▸ hd'r)
      have hcost := (hchar (denomination_to_node l d)).2 hnr
      rw [hlk, if_pos hdm, Nat.zero_add]
      rw [show (unique_denominations l).indexOf d = denomination_to_node l d
          from rfl, hcost]
    · rw [hlk, if_neg hdm]

theorem MultiplyDecimal.le_infinite (a : MultiplyDecimal) :
    MultiplyDecimal.le a MultiplyDecimal.Infinite = true := by
  cases a <;> rfl

/-- Finite distances only ever come from relaxations out of the source,
no potential needed: a finite final distance means the node is reachable. -/
theorem bellman_ford_reaches {n : ℕ} {E : List Edge} {s : ℕ} (k : ℕ)
    (h : bellman_ford n E s k ≠ .Infinite) : Reaches E s k := by
  refine bfLoop_reaches (n - 1) _ ?_ k h
  intro k' hk'
  by_cases hks : k' = s
  · subst hks; exact Reaches.refl
  · simp [hks] at hk'

/-- The source keeps a finite distance: it starts at `Finite 1` and
relaxation only ever writes finite values. -/
theorem bellman_ford_source_ne_infinite (n : ℕ) (E : List Edge) (s : ℕ) :
    bellman_ford n E s s ≠ .Infinite := by
  apply bfLoop_ne_infinite
  simp

/-- When no rate is zero and the base is a node, `in_common_currency`
returns its table (both abort guards pass). -/
theorem icc_some {l : List ExchangeRate} {base : Denomination}
    (hrate : ∀ e ∈ l, e.rate ≠ 0)
    (hbase : base ∈ unique_denominations l) :
    in_common_currency l base =
      some (buildTable (bellman_ford (unique_denominations l).length
        (conversion_tuples l) (denomination_to_node l base))
        (unique_denominations l) 0) := by
  have hany : (l.any fun c => c.rate == 0) = false := by
    rw [List.any_eq_false]
    intro e he
    simpa using hrate e he
  unfold in_common_currency
  rw [hany]
  simp only [Bool.false_eq_true, if_false, if_pos hbase]

theorem mem_buildTable {costs : ℕ → MultiplyDecimal} :
    ∀ (m : List Denomination) (i : ℕ) (p : Denomination × ℚ),
      p ∈ buildTable costs m i → p.1 ∈ m := by
  intro m
  induction m with
  | nil => intro i p hp; simp [buildTable] at hp
  | cons a rest ih =>
    intro i p hp
    cases hc : costs i with
    | Finite x =>
      rw [buildTable, hc] at hp
      rcases List.mem_cons.mp hp with rfl | hp
      · exact List.mem_cons_self _ _
      · exact List.mem_cons_of_mem _ (ih (i + 1) p hp)
    | Infinite =>
      rw [buildTable, hc] at hp
      exact List.mem_cons_of_mem _ (ih (i + 1) p hp)

theorem dreach_of_subset {l1 l2 : List ExchangeRate} {base d : Denomination}
    (hsub : ∀ e ∈ l1, e ∈ l2) (h : DReach l1 base d) : DReach l2 base d := by
  induction h with
  | refl => exact DReach.refl
  | fwd _ he hx ih => exact DReach.fwd ih (hsub _ he) hx
  | rev _ he hx ih => exact DReach.rev ih (hsub _ he) hx

/-- Concrete denominations used by the test fixtures
(`common_currency_test.rs`). -/
def usd : Denomination := Denomination.Currency "USD"

def czk : Denomination := Denomination.Currency "CZK"

def plz : Denomination := Denomination.Currency "PLZ"

def eur : Denomination := Denomination.Currency "EUR"

def aapl : Denomination := Denomination.Stock "AAPL"

/-! ### The financial-independence projection
(`model/differential.rs` and `model/model.rs`)

`Decimal` values here flow through `f64` (`to_f64().unwrap()` always
succeeds on a `Decimal`), so they are modelled over `ℝ`.  The
`Decimal::from_f64(..).unwrap()` at the end of `decimal_log` / `hack_pow`
aborts when the `f64` result is `NaN` or infinite — i.e. exactly when the
logarithm argument is not strictly positive, respectively when the `powf`
base is not strictly positive; `rust_decimal` division aborts on a zero
divisor.  Those aborts are `none`. -/

/-- `decimal_log` from `differential.rs` / `model.rs`: `ln` through `f64`;
`ln x` is `NaN` for `x < 0` and `-inf` for `x = 0`, making the final
`unwrap` abort, so only strictly positive arguments succeed. -/
noncomputable def decimal_log (x : ℝ) : Option ℝ :=
  if 0 < x then some (Real.log x) else none

/-- `hack_pow` from `model.rs`: `a.powf(b)` through `f64`.  For a
strictly positive base the result is finite; `powf` of a nonpositive base
yields `NaN`/`inf` in the cases reached here, aborting the `unwrap`. -/
noncomputable def hack_pow (a b : ℝ) : Option ℝ :=
  if 0 < a then some (a ^ b) else none

/-- `rust_decimal` division: aborts on a zero divisor, otherwise exact
(the 28-significant-digit rounding is abstracted away). -/
noncomputable def decimal_div (a b : ℝ) : Option ℝ :=
  if b = 0 then none else some (a / b)

/-- `deadline_target` from `model.rs`:
`((monthly_goal * 12) / ln(1 + yearly_yield)) * (1 - (1 + yearly_yield) ^ (-deadline))`. -/
noncomputable def deadline_target
    (yearly_yield monthly_goal deadline : ℝ) : Option ℝ :=
  (decimal_log (1 + yearly_yield)).bind fun lg =>
    (decimal_div (monthly_goal * 12) lg).bind fun q =>
      (hack_pow (1 + yearly_yield) (-deadline)).map fun p => q * (1 - p)

/-- `get_investment_durability` from `differential.rs`: with
`C = monthly_costs * 12`, `i' = ln(1 + yearly_yield)` and
`c = total - C / i'`, it computes `ln(-c / (c * i')) / i'`. -/
noncomputable def get_investment_durability
    (total yearly_yield monthly_costs : ℝ) : Option ℝ :=
  (decimal_log (1 + yearly_yield)).bind fun i_prime =>
    (decimal_div (monthly_costs * 12) i_prime).bind fun t =>
      (decimal_div (-(total - t)) ((total - t) * i_prime)).bind fun r =>
        (decimal_log r).bind fun lg =>
          decimal_div lg i_prime

/-- `years_until_saved_up_exp` from `differential.rs`: with
`C = -monthly_saving * 12`, `i' = ln(1 + yearly_yield)` and
`c = total - C / i'`, it computes `ln((c / i' - target) / (-c)) / i'`. -/
noncomputable def years_until_saved_up_exp
    (total yearly_yield target_number monthly_saving : ℝ) : Option ℝ :=
  (decimal_log (1 + yearly_yield)).bind fun i_prime =>
    (decimal_div (-monthly_saving * 12) i_prime).bind fun t =>
      (decimal_div (total - t) i_prime).bind fun a =>
        (decimal_div (a - target_number) (-(total - t))).bind fun r =>
          (decimal_log r).bind fun lg =>
            decimal_div lg i_prime

/-- `years_duration` from `model.rs`: a number of years as whole seconds,
a year being exactly `365.24` days.  (Rust's `f64::round` rounds half away
from zero; `round` rounds half up — they agree except at exact
half-seconds, which no statement below depends on.) -/
noncomputable def years_duration (years : ℝ) : ℤ :=
  round (years * 24 * 60 * 60 * 365.24)

/-- `State` from `model.rs`.  The two `DateTime` fields are modelled as
seconds relative to the same clock value `now` passed to
`model_fi_info`. -/
inductive State
  | Reached (overreach_percentage : ℝ)
  | NotReached (durability : ℤ) (until_saved_up : ℤ)
      (lasts_until : ℤ) (projected_until_saved : ℤ)

/-- `FiInfo` from `model.rs`. -/
structure FiInfo where
  deadline : ℝ
  need_to_last_until_deadline : ℝ
  total : ℝ
  monthly_saving : ℝ
  state : State

/-- `model_fi_info` from `model.rs`.  `Utc::now()` is the parameter
`now`. -/
noncomputable def model_fi_info
    (total yearly_yield monthly_goal monthly_saving deadline : ℝ)
    (now : ℤ) : Option FiInfo :=
  (deadline_target yearly_yield monthly_goal deadline).bind fun target =>
    if target < total then
      (decimal_div total target).map fun o =>
        ⟨deadline, target, total, monthly_saving, State.Reached (o * 100)⟩
    else
      (get_investment_durability total yearly_yield monthly_goal).bind
        fun dur =>
          (years_until_saved_up_exp total yearly_yield target
            monthly_saving).map fun ny =>
            ⟨deadline, target, total, monthly_saving,
              State.NotReached (years_duration dur) (years_duration ny)
                (now + years_duration dur) (now + years_duration ny)⟩

/-- With any strictly positive yield, the durability formula evaluates
`ln(-c / (c * i'))`: for `c ≠ 0` the argument equals `-1 / i' < 0` (a
negative logarithm argument, hence `NaN` and an aborting `unwrap`), and
for `c = 0` the division itself is `0 / 0`, aborting.  So the function
aborts for every input with positive yield. -/
theorem durability_none (total yy mc : ℝ) (hyy : 0 < yy) :
    get_investment_durability total yy mc = none := by
  have h1 : (0:ℝ) < 1 + yy := by linarith
  have hL : 0 < Real.log (1 + yy) := Real.log_pos (by linarith)
  unfold get_investment_durability decimal_log decimal_div
  rw [if_pos h1]
  simp only [Option.some_bind]
  rw [if_neg hL.ne']
  simp only [Option.some_bind]
  by_cases hc : total - mc * 12 / Real.log (1 + yy) = 0
  · rw [hc]
    rw [if_pos (by rw [zero_mul])]
    rfl
  · rw [if_neg (mul_ne_zero hc hL.ne')]
    simp only [Option.some_bind]
    have ha : total * Real.log (1 + yy) - mc * 12 ≠ 0 := by
      intro h
      apply hc
      rw [sub_eq_zero] at h ⊢
      rw [eq_div_iff hL.ne']
      exact h
    have hr : -(total - mc * 12 / Real.log (1 + yy)) /
        ((total - mc * 12 / Real.log (1 + yy)) * Real.log (1 + yy)) =
        -(1 / Real.log (1 + yy)) := by
      field_simp
      ring
    rw [hr, if_neg (by
      simp only [not_lt]
      have : 0 < 1 / Real.log (1 + yy) := by positivity
      linarith)]
    rfl

/-- Whenever the deadline target computation makes the `NotReached`
branch run (`total` not above the target) and the yield is positive,
`model_fi_info` aborts inside `get_investment_durability`. -/
theorem fi_none_of_le (total yy mg ms dl : ℝ) (now : ℤ) (hyy : 0 < yy)
    (hle : ∀ tgt, deadline_target yy mg dl = some tgt → total ≤ tgt) :
    model_fi_info total yy mg ms dl now = none := by
  unfold model_fi_info
  cases hdt : deadline_target yy mg dl with
  | none => rfl
  | some tgt =>
    simp only [Option.some_bind]
    rw [if_neg (not_lt.mpr (hle tgt hdt)), durability_none total yy mg hyy]
    rfl

theorem two_le_exp_one : (2:ℝ) ≤ Real.exp 1 := by
  have := Real.add_one_le_exp 1
  linarith

theorem exp_neg_one_le_half : Real.exp (-1) ≤ 1 / 2 := by
  rw [Real.exp_neg]
  have h := inv_anti₀ (by norm_num : (0:ℝ) < 2) two_le_exp_one
  simpa [one_div] using h

/-- Concrete evaluation of the deadline target at yield `e - 1`, goal `1`,
horizon `1`: the growth constant is `ln(e) = 1`, so the target is
`12 * (1 - e⁻¹)`. -/
theorem deadline_target_exp :
    deadline_target (Real.exp 1 - 1) 1 1 = some (12 * (1 - Real.exp (-1))) := by
  unfold deadline_target decimal_log decimal_div hack_pow
  have h1 : (1:ℝ) + (Real.exp 1 - 1) = Real.exp 1 := by ring
  rw [h1, if_pos (Real.exp_pos 1)]
  simp only [Option.some_bind]
  rw [Real.log_exp, if_neg one_ne_zero]
  simp only [Option.some_bind]
  rw [if_pos (Real.exp_pos 1)]
  simp only [Option.map_some']
  rw [Real.exp_one_rpow]
  norm_num

/-! ### The claims -/

/-- C3 counterexample: on the empty observation list the valuation does
not succeed with an empty table — the lookup of the base among the (zero)
graph nodes aborts, modelled as `none`. -/
theorem in_common_currency_empty_counterexample :
    in_common_currency [] czk = none := by decide

/-- C3 (amended): for every base, the valuation of an empty observation
list aborts while looking the base up among the graph nodes (the graph
itself is built fine with zero nodes and zero edges, but
`denomination_to_node[base]` has no entry); it never returns the empty
table. -/
theorem in_common_currency_empty_aborts (base : Denomination) :
    in_common_currency [] base = none := by
  unfold in_common_currency
  simp [unique_denominations]

/-- C9: whenever the base denomination is not an endpoint of any
observation (in particular on the empty list), `in_common_currency`
aborts — the `denomination_to_node[base]` map lookup fails — so it only
returns normally when the base occurs in some observation. -/
theorem missing_base_aborts (l : List ExchangeRate) (base : Denomination)
    (h : ∀ e ∈ l, e.from' ≠ base ∧ e.to' ≠ base) :
    in_common_currency l base = none := by
  have hb : base ∉ unique_denominations l := by
    intro hmem
    obtain ⟨e, he, h' | h'⟩ := mem_unique_denominations.mp hmem
    · exact (h e he).1 h'
    · exact (h e he).2 h'
  unfold in_common_currency
  cases hany : (l.any fun c => c.rate == 0) with
  | true => rfl
  | false =>
    simp only [Bool.false_eq_true, if_false]
    rw [if_neg hb]

/-- C9 witness: a base occurring in no observation. -/
theorem missing_base_aborts_witness :
    in_common_currency [⟨usd, czk, 30⟩] eur = none :=
  missing_base_aborts _ _ (by decide)

/-- C10: whenever `in_common_currency` returns a table, the base itself is
a key with a finite factor (its distance is seeded `Finite 1` and
relaxation never writes the infinite sentinel over a finite distance), and
every key of the table occurs as the `from` or `to` endpoint of some input
observation. -/
theorem base_in_table_and_keys_touched (l : List ExchangeRate)
    (base : Denomination) (t : List (Denomination × ℚ))
    (h : in_common_currency l base = some t) :
    (∃ q, tableLookup t base = some q) ∧
      (∀ d q, (d, q) ∈ t → ∃ e ∈ l, e.from' = d ∨ e.to' = d) := by
  unfold in_common_currency at h
  split at h
  · exact absurd h (by simp)
  · split at h
    · rename_i hbase
      injection h with h
      subst h
      constructor
      · have hne := bellman_ford_source_ne_infinite
          (unique_denominations l).length (conversion_tuples l)
          (denomination_to_node l base)
        rw [tableLookup_buildTable _ _ 0 (unique_denominations_nodup l) base,
          if_pos hbase, Nat.zero_add]
        cases hc : bellman_ford (unique_denominations l).length
            (conversion_tuples l) (denomination_to_node l base)
            ((unique_denominations l).indexOf base) with
        | Finite x => exact ⟨x, rfl⟩
        | Infinite => exact absurd hc hne
      · intro d q hdq
        exact mem_unique_denominations.mp (mem_buildTable _ 0 (d, q) hdq)
    · exact absurd h (by simp)

/-- C10 witness: the single-observation fixture. -/
theorem base_in_table_and_keys_touched_witness :
    (∃ q, tableLookup [(usd, 30), (czk, 1)] czk = some q) ∧
      (∀ d q, (d, q) ∈ [(usd, (30:ℚ)), (czk, 1)] →
        ∃ e ∈ [(⟨usd, czk, 30⟩ : ExchangeRate)], e.from' = d ∨ e.to' = d) :=
  base_in_table_and_keys_touched [⟨usd, czk, 30⟩] czk [(usd, 30), (czk, 1)]
    (by decide)

/-- C8: a denomination with no path to the base is simply absent from the
returned table (not mapped to zero or an infinite sentinel), and its
presence never prevents the valuation from returning the table for the
reachable denominations (the abort conditions — zero rate, missing base —
are independent of it). -/
theorem unreachable_absent_from_table (l : List ExchangeRate)
    (base d : Denomination)
    (hrate : ∀ e ∈ l, e.rate ≠ 0)
    (hbase : base ∈ unique_denominations l)
    (hunreach : ¬ DReach l base d) :
    ∃ t, in_common_currency l base = some t ∧ tableLookup t d = none := by
  refine ⟨_, icc_some hrate hbase, ?_⟩
  rw [tableLookup_buildTable _ _ 0 (unique_denominations_nodup l) d]
  by_cases hdm : d ∈ unique_denominations l
  · rw [if_pos hdm, Nat.zero_add]
    have hinf : bellman_ford (unique_denominations l).length
        (conversion_tuples l) (denomination_to_node l base)
        ((unique_denominations l).indexOf d) = .Infinite := by
      by_contra hne
      obtain ⟨d', hd'm, hd'i, hd'r⟩ :=
        reaches_to_dreach hbase _ (bellman_ford_reaches _ hne)
      have : d = d' := (List.indexOf_inj hdm hd'm).mp hd'i
      exact hunreach (this ▸ hd'r)
    rw [hinf]
  · rw [if_neg hdm]

/-- C8 witness: a stock with no observations at all is absent from the
single-observation fixture's table, which is still returned. -/
theorem unreachable_absent_from_table_witness :
    ∃ t, in_common_currency [⟨usd, czk, 30⟩] czk = some t ∧
      tableLookup t aapl = none :=
  unreachable_absent_from_table [⟨usd, czk, 30⟩] czk aapl (by decide)
    (by decide)
    (fun h => absurd (dreach_touched (by decide) h) (by decide))

/-- C5: for a single observation `A→B` with rate `r` and base `B`, the
returned factor for `A` is exactly `r`; for a chain `A→B` (rate `r1`),
`B→C` (rate `r2`) with base `C`, the factor for `A` is exactly `r1 * r2`
(conversion factors compose multiplicatively along the path to the base).
Exact equality in particular implies the tests' `0.001` tolerance. -/
theorem single_hop_and_chain_factors (A B C : Denomination) (r r1 r2 : ℚ) :
    (A ≠ B → r ≠ 0 →
      (in_common_currency [⟨A, B, r⟩] B).bind (fun t => tableLookup t A) =
        some r) ∧
    (A ≠ B → B ≠ C → A ≠ C → r1 ≠ 0 → r2 ≠ 0 →
      (in_common_currency [⟨A, B, r1⟩, ⟨B, C, r2⟩] C).bind
        (fun t => tableLookup t A) = some (r1 * r2)) := by
  constructor
  · intro hab hr
    obtain ⟨t, ht, hc⟩ := icc_char (l := [⟨A, B, r⟩]) B
      (fun d => if d = A then r else 1)
      (by
        intro e he
        rcases List.mem_singleton.mp he with rfl
        exact hr)
      (to_mem_unique (List.mem_singleton_self _))
      (by show (if B = A then r else 1) = 1
          rw [if_neg (Ne.symm hab)])
      (by
        intro e he
        rcases List.mem_singleton.mp he with rfl
        show (if A = A then r else 1) = (if B = A then r else 1) * r
        rw [if_pos rfl, if_neg (Ne.symm hab), one_mul])
    rw [ht]
    simp only [Option.some_bind]
    have hreach : DReach [(⟨A, B, r⟩ : ExchangeRate)] B A :=
      DReach.fwd (e := ⟨A, B, r⟩) DReach.refl (List.mem_singleton_self _) rfl
    rw [(hc A).1 hreach]
    simp
  · intro hab hbc hac hr1 hr2
    obtain ⟨t, ht, hc⟩ := icc_char
      (l := [⟨A, B, r1⟩, ⟨B, C, r2⟩]) C
      (fun d => if d = A then r1 * r2 else if d = B then r2 else 1)
      (by
        intro e he
        rcases List.mem_cons.mp he with rfl | he
        · exact hr1
        · rcases List.mem_singleton.mp he with rfl
          exact hr2)
      (to_mem_unique (List.mem_cons_of_mem _ (List.mem_singleton_self _)))
      (by show (if C = A then r1 * r2 else if C = B then r2 else 1) = 1
          rw [if_neg (Ne.symm hac), if_neg (Ne.symm hbc)])
      (by
        intro e he
        rcases List.mem_cons.mp he with rfl | he
        · show (if A = A then r1 * r2 else _) =
            (if B = A then r1 * r2 else if B = B then r2 else 1) * r1
          rw [if_pos rfl, if_neg (Ne.symm hab), if_pos rfl, mul_comm r2 r1]
        · rcases List.mem_singleton.mp he with rfl
          show (if B = A then r1 * r2 else if B = B then r2 else 1) =
            (if C = A then r1 * r2 else if C = B then r2 else 1) * r2
          rw [if_neg (Ne.symm hab), if_pos rfl, if_neg (Ne.symm hac),
            if_neg (Ne.symm hbc), one_mul])
    rw [ht]
    simp only [Option.some_bind]
    have hreachB : DReach [(⟨A, B, r1⟩ : ExchangeRate), ⟨B, C, r2⟩] C B :=
      DReach.fwd (e := ⟨B, C, r2⟩) DReach.refl
        (List.mem_cons_of_mem _ (List.mem_singleton_self _)) rfl
    have hreachA : DReach [(⟨A, B, r1⟩ : ExchangeRate), ⟨B, C, r2⟩] C A :=
      DReach.fwd (e := ⟨A, B, r1⟩) hreachB (List.mem_cons_self _ _) rfl
    rw [(hc A).1 hreachA]
    simp

/-- C5 witness: the two test fixtures (`one_conversion`,
`two_conversions_chain`): rate 30 for USD→CZK gives factor 30 with base
CZK; adding CZK→PLZ at 0.2 gives factor 6 with base PLZ. -/
theorem single_hop_and_chain_factors_witness :
    (in_common_currency [⟨usd, czk, 30⟩] czk).bind
      (fun t => tableLookup t usd) = some 30 ∧
    (in_common_currency [⟨usd, czk, 30⟩, ⟨czk, plz, 1/5⟩] plz).bind
      (fun t => tableLookup t usd) = some (30 * (1/5)) :=
  ⟨(single_hop_and_chain_factors usd czk plz 30 30 (1/5)).1 (by decide)
      (by decide),
    (single_hop_and_chain_factors usd czk plz 30 30 (1/5)).2 (by decide)
      (by decide) (by decide) (by decide) (by decide)⟩

/-- C6 counterexample: two observation lists that are permutations of each
other (two parallel USD→CZK edges with different rates 2 and 3, base CZK)
produce different factor tables: the base's own factor comes out `2/3` in
one order and `1` in the other, because the inconsistent parallel rates
form a product-below-one cycle and the pass budget (`|V| - 1 = 1`) ends
relaxation in an order-dependent state. -/
theorem solver_permutation_counterexample :
    List.Perm [(⟨usd, czk, 2⟩ : ExchangeRate), ⟨usd, czk, 3⟩]
      [⟨usd, czk, 3⟩, ⟨usd, czk, 2⟩] ∧
    (in_common_currency [⟨usd, czk, 2⟩, ⟨usd, czk, 3⟩] czk).bind
      (fun t => tableLookup t czk) = some (2/3) ∧
    (in_common_currency [⟨usd, czk, 3⟩, ⟨usd, czk, 2⟩] czk).bind
      (fun t => tableLookup t czk) = some 1 := by
  refine ⟨List.Perm.swap _ _ _, by decide, by decide⟩

/-- C6 (amended): the valuation is a pure function of the ordered
observation list, and permutation invariance holds whenever the
observations are consistent — i.e. some factor assignment `φ` has
`φ base = 1` and `φ from = φ to * rate` for every observation (duplicate
or parallel edges allowed as long as they agree with `φ`): then both
permutations return tables with identical lookups.  With inconsistent
parallel rates the table may depend on the observation order
(counterexample above). -/
theorem solver_perm_invariant_of_potential (l1 l2 : List ExchangeRate)
    (base : Denomination) (φ : Denomination → ℚ)
    (hperm : List.Perm l1 l2)
    (hφb : φ base = 1)
    (h : ∀ e ∈ l1, e.rate ≠ 0 ∧ φ e.from' = φ e.to' * e.rate)
    (hbase : base ∈ unique_denominations l1) :
    ∃ t1 t2, in_common_currency l1 base = some t1 ∧
      in_common_currency l2 base = some t2 ∧
      ∀ d, tableLookup t1 d = tableLookup t2 d := by
  have hmem : ∀ e : ExchangeRate, e ∈ l1 ↔ e ∈ l2 := fun e => hperm.mem_iff
  have h2 : ∀ e ∈ l2, e.rate ≠ 0 ∧ φ e.from' = φ e.to' * e.rate :=
    fun e he => h e ((hmem e).mpr he)
  have hbase2 : base ∈ unique_denominations l2 := by
    obtain ⟨e, he, hor⟩ := mem_unique_denominations.mp hbase
    exact mem_unique_denominations.mpr ⟨e, (hmem e).mp he, hor⟩
  obtain ⟨t1, ht1, hc1⟩ := icc_char base φ (fun e he => (h e he).1) hbase
    hφb (fun e he => (h e he).2)
  obtain ⟨t2, ht2, hc2⟩ := icc_char base φ (fun e he => (h2 e he).1) hbase2
    hφb (fun e he => (h2 e he).2)
  refine ⟨t1, t2, ht1, ht2, ?_⟩
  intro d
  by_cases hd : DReach l1 base d
  · rw [(hc1 d).1 hd,
      (hc2 d).1 (dreach_of_subset (fun e he => (hmem e).mp he) hd)]
  · have hd2 : ¬ DReach l2 base d := fun hr =>
      hd (dreach_of_subset (fun e he => (hmem e).mpr he) hr)
    rw [(hc1 d).2 hd, (hc2 d).2 hd2]

/-- C6 witness: permuting the two observations of the consistent chain
fixture leaves every lookup unchanged. -/
theorem solver_perm_invariant_of_potential_witness :
    ∃ t1 t2,
      in_common_currency [⟨usd, czk, 30⟩, ⟨czk, plz, 1/5⟩] plz = some t1 ∧
      in_common_currency [⟨czk, plz, 1/5⟩, ⟨usd, czk, 30⟩] plz = some t2 ∧
      ∀ d, tableLookup t1 d = tableLookup t2 d :=
  solver_perm_invariant_of_potential _ _ plz
    (fun d => if d = usd then 6 else if d = czk then 1/5 else 1)
    (List.Perm.swap _ _ _) (by decide) (by decide) (by decide)

/-- C7 counterexample: with the two inconsistent parallel observations
USD→CZK at rates 2 and 3 (base CZK), after the relaxation passes complete
the edge `CZK → USD` of weight 2 still violates the relaxation invariant:
`distance[USD] ≤ distance[CZK] * 2` is false (distances end at
`USD ↦ 2`, `CZK ↦ 2/3`).  The pass budget `|V| - 1` ran out before the
product-below-one cycle stopped improving distances — this is exactly the
situation the code's final check pass only logs a warning about. -/
theorem relaxation_invariant_counterexample :
    ((1, 0, MultiplyDecimal.Finite 2) ∈
      conversion_tuples [⟨usd, czk, 2⟩, ⟨usd, czk, 3⟩]) ∧
    MultiplyDecimal.le
      (bellman_ford
        (unique_denominations [⟨usd, czk, 2⟩, ⟨usd, czk, 3⟩]).length
        (conversion_tuples [⟨usd, czk, 2⟩, ⟨usd, czk, 3⟩])
        (denomination_to_node [⟨usd, czk, 2⟩, ⟨usd, czk, 3⟩] czk) 0)
      (MultiplyDecimal.add
        (bellman_ford
          (unique_denominations [⟨usd, czk, 2⟩, ⟨usd, czk, 3⟩]).length
          (conversion_tuples [⟨usd, czk, 2⟩, ⟨usd, czk, 3⟩])
          (denomination_to_node [⟨usd, czk, 2⟩, ⟨usd, czk, 3⟩] czk) 1)
        (MultiplyDecimal.Finite 2)) = false := by
  refine ⟨by decide, by decide⟩

/-- C7 (amended): the relaxation invariant
`distance[target] ≤ distance[source] * weight` holds for every edge after
the passes complete, provided the edge weights admit a consistent
potential (`φ source = 1`, and every edge weight is finite with
`φ target = φ source * weight`) — equivalently, no product-below-one
cycle.  Otherwise the pass budget can run out first and an edge may still
be improvable, which the code's final pass reports as a warning
(counterexample above). -/
theorem relaxation_invariant_of_potential {n : ℕ} {E : List Edge} {s : ℕ}
    (φ : ℕ → ℚ) (hwf : WFEdges n E)
    (hpot : ∀ e ∈ E, potEdge φ e = true) (hφs : φ s = 1) (hs : s < n) :
    ∀ e ∈ E, MultiplyDecimal.le (bellman_ford n E s e.2.1)
      (MultiplyDecimal.add (bellman_ford n E s e.1) e.2.2) = true := by
  intro e he
  have hchar := bellman_ford_char hwf hpot hφs hs
  obtain ⟨w, hw, hp⟩ := potEdge_elim (hpot e he)
  by_cases hi : Reaches E s e.1
  · have h1 := (hchar e.1).1 hi
    have hj : Reaches E s e.2.1 := Reaches.step hi he
    have h2 := (hchar e.2.1).1 hj
    rw [h1, h2, hw, MultiplyDecimal.add_finite, hp]
    simp [MultiplyDecimal.le]
  · rw [(hchar e.1).2 hi, hw]
    exact MultiplyDecimal.le_infinite _

/-- C7 witness: on the consistent single-observation fixture the
invariant holds, e.g. for the edge `CZK → USD` of weight 30. -/
theorem relaxation_invariant_of_potential_witness :
    MultiplyDecimal.le
      (bellman_ford (unique_denominations [⟨usd, czk, 30⟩]).length
        (conversion_tuples [⟨usd, czk, 30⟩])
        (denomination_to_node [⟨usd, czk, 30⟩] czk)
        ((1, 0, MultiplyDecimal.Finite 30) : Edge).2.1)
      (MultiplyDecimal.add
        (bellman_ford (unique_denominations [⟨usd, czk, 30⟩]).length
          (conversion_tuples [⟨usd, czk, 30⟩])
          (denomination_to_node [⟨usd, czk, 30⟩] czk)
          ((1, 0, MultiplyDecimal.Finite 30) : Edge).1)
        ((1, 0, MultiplyDecimal.Finite 30) : Edge).2.2) = true :=
  relaxation_invariant_of_potential (fun i => if i = 0 then 30 else 1)
    (by decide) (by decide) (by decide) (by decide)
    (1, 0, MultiplyDecimal.Finite 30) (by decide)

/-- C1: the claim fails — the code has the durability formula wrong.  For
every projection input that takes the `NotReached` branch (total not above
the deadline target) with strictly positive yield, `model_fi_info` does
not return a `NotReached` state at all: `get_investment_durability`
evaluates `ln(-c / (c * i'))`, whose argument is `-1 / i' < 0` whenever
`c ≠ 0` (and `0 / 0` when `c = 0`), so the `f64` logarithm is `NaN` and
`Decimal::from_f64(..).unwrap()` aborts.  The value is independent of
`total` and never the exhaustion time the spec describes. -/
theorem model_fi_info_notreached_aborts (total yy mg ms dl : ℝ) (now : ℤ)
    (hyy : 0 < yy)
    (hle : ∀ tgt, deadline_target yy mg dl = some tgt → total ≤ tgt) :
    model_fi_info total yy mg ms dl now = none :=
  fi_none_of_le total yy mg ms dl now hyy hle

/-- C1 witness: total 1, yield `e - 1` (growth constant exactly 1), goal
1/month, horizon 1 year — the target `12 * (1 - e⁻¹) ≥ 6` exceeds the
total, and the evaluation aborts. -/
theorem model_fi_info_notreached_aborts_witness :
    model_fi_info 1 (Real.exp 1 - 1) 1 0 1 0 = none := by
  apply model_fi_info_notreached_aborts
  · have := two_le_exp_one
    linarith
  · intro tgt h
    rw [deadline_target_exp] at h
    injection h with h
    subst h
    have := exp_neg_one_le_half
    linarith

/-- C2: calling the projection entry point with `yearly_yield = 0` always
aborts: `deadline_target` divides `monthly_goal * 12` by
`ln(1 + 0) = 0`, and `rust_decimal` division by zero aborts the process
before any result is produced. -/
theorem model_fi_info_zero_yield_aborts (total mg ms dl : ℝ) (now : ℤ) :
    model_fi_info total 0 mg ms dl now = none := by
  have hdt : deadline_target 0 mg dl = none := by
    unfold deadline_target decimal_log decimal_div
    norm_num [Real.log_one]
  unfold model_fi_info
  rw [hdt]
  rfl

/-- C4 counterexample: at `total` exactly equal to the deadline target
(yield `e - 1`, goal 1, horizon 1, target `12 * (1 - e⁻¹)`), the state is
not `Reached` with 100% — the code tests `target < total` strictly, takes
the `NotReached` branch and aborts in the durability computation. -/
theorem model_fi_info_boundary_counterexample :
    model_fi_info (12 * (1 - Real.exp (-1))) (Real.exp 1 - 1) 1 0 1 0 =
      none := by
  apply fi_none_of_le
  · have := two_le_exp_one
    linarith
  · intro tgt h
    rw [deadline_target_exp] at h
    injection h with h
    exact le_of_eq h

/-- C4 (amended): `Reached` requires `total` strictly above the deadline
target (the code tests `target < total`); then the state is `Reached`
with `overreach_percentage = total / target * 100` (provided the target
is nonzero, else the percentage division aborts).  At exact equality the
code takes the `NotReached` branch instead (and, with positive yield,
aborts there — counterexample above); slightly below the target it
likewise takes the `NotReached` branch. -/
theorem model_fi_info_reached_strict (total yy mg ms dl : ℝ) (now : ℤ)
    (tgt : ℝ) (hdt : deadline_target yy mg dl = some tgt)
    (hlt : tgt < total) (htz : tgt ≠ 0) :
    model_fi_info total yy mg ms dl now =
      some ⟨dl, tgt, total, ms, State.Reached (total / tgt * 100)⟩ := by
  unfold model_fi_info
  rw [hdt]
  simp only [Option.some_bind]
  rw [if_pos hlt]
  unfold decimal_div
  rw [if_neg htz]
  rfl

/-- C4 witness: total 12 strictly above the target `12 * (1 - e⁻¹)`. -/
theorem model_fi_info_reached_strict_witness :
    model_fi_info 12 (Real.exp 1 - 1) 1 0 1 0 =
      some ⟨1, 12 * (1 - Real.exp (-1)), 12, 0,
        State.Reached (12 / (12 * (1 - Real.exp (-1))) * 100)⟩ := by
  have hpos : (0:ℝ) < 12 * (1 - Real.exp (-1)) := by
    have := exp_neg_one_le_half
    linarith
  apply model_fi_info_reached_strict 12 (Real.exp 1 - 1) 1 0 1 0
    (12 * (1 - Real.exp (-1))) deadline_target_exp
  · have := Real.exp_pos (-1)
    linarith
  · exact hpos.ne'

end Worthy

end Spec2Proof
